import Mathlib

/-!
Verification of the TRIAGEAGENT ticket triage-and-assignment pipeline.

The definitions below are a shallow embedding of the two core modules of the
repository: the rule-based classifier of `src/ai_triage.py` and the
assignment engine of `src/engineer_assignment.py`.  Python strings are
modelled as `String` / `List Char`, Python floats (which in this code only
ever hold exact fractions of small integers) as `ℚ`, string-keyed Python
dicts as association lists or as functions out of `String`, and Python's
stable `sorted` as `List.insertionSort` (insertion sort with a total
preorder is a stable sort, which is the semantic contract of `sorted`).
-/

/-! ## Python string primitives -/

/-- Embedding of Python `str.lower()` (character-wise lowering). -/
def pyLower (s : String) : String := String.mk (s.toList.map Char.toLower)

/-- Character-list version of `str.lower()`. -/
def lowerL (l : List Char) : List Char := l.map Char.toLower

/-- Embedding of the Python substring test `needle in hay`. -/
def containsTok (hay needle : List Char) : Bool :=
  hay.tails.any (fun t => needle.isPrefixOf t)

/-- Whitespace class stripped by Python `str.strip()`. -/
def isWsC (c : Char) : Bool := c.isWhitespace

/-- Quote class stripped by Python `str.strip("'\"")`. -/
def isQuoteC (c : Char) : Bool := c == '\'' || c == '"'

/-- Embedding of Python `str.strip(chars)`: drop the leading and trailing
characters satisfying `p`. -/
def pyStripL (p : Char → Bool) (s : List Char) : List Char :=
  ((s.dropWhile p).reverse.dropWhile p).reverse

/-- Accumulator loop for `str.split(sep)` with a one-character separator. -/
def pySplitAux (sep : Char) : List Char → List Char → List (List Char)
  | [], acc => [acc.reverse]
  | c :: cs, acc =>
    if c = sep then acc.reverse :: pySplitAux sep cs []
    else pySplitAux sep cs (c :: acc)

/-- Embedding of Python `s.split(sep)` for a one-character separator
(`"".split(sep) = [""]`, exactly as in Python). -/
def pySplitL (sep : Char) (s : List Char) : List (List Char) := pySplitAux sep s []

/-- Comma-space join of character-list tokens, the shape produced by
`", ".join(...)`; used to state the skill-input robustness claim. -/
def joinCS : List (List Char) → List Char
  | [] => []
  | [t] => t
  | t :: u :: rest => t ++ ',' :: ' ' :: joinCS (u :: rest)

/-- A character-list end (head or last) is clean when it is neither
whitespace nor a quote character. -/
def okEndB (o : Option Char) : Bool :=
  match o with
  | none => true
  | some c => !isWsC c && !isQuoteC c

/-- A clean skill token: non-empty, free of commas and brackets, already
lowercase, and with clean ends — the shape of the skill tokens this
repository stores (`"Network"`, `"Security"`, …) after lowering.  The
skill-input robustness claim quantifies over lists of clean tokens: these
are the token lists for which the three accepted input shapes describe the
same logical skill set. -/
def cleanTokB (t : List Char) : Bool :=
  !t.isEmpty &&
    t.all (fun c => !(c == ',') && !(c == '[') && !(c == ']') && (c.toLower == c)) &&
    okEndB t.head? && okEndB t.getLast?

/-! ## Rule-based classifier (`src/ai_triage.py`) -/

/-- `AITriageAgent.CATEGORY_KEYWORDS`, in Python dict insertion order. -/
def CATEGORY_KEYWORDS : List (String × List String) :=
  [("Network", ["vpn", "network", "firewall", "dns", "latency", "switch", "router", "connection"]),
   ("Database", ["database", "sql", "postgresql", "mysql", "mongodb", "query", "replication"]),
   ("DevOps", ["ci/cd", "pipeline", "kubernetes", "docker", "jenkins", "terraform", "deployment"]),
   ("Security", ["security", "ssl", "certificate", "vulnerability", "unauthorized", "mfa", "login"]),
   ("Frontend", ["frontend", "website", "css", "javascript", "mobile", "browser", "ui"]),
   ("Backend", ["api", "backend", "server", "endpoint", "payment", "email", "session"]),
   ("Access", ["access", "permission", "credentials", "password", "account", "privileges"]),
   ("Other", ["printer", "laptop", "license", "inquiry", "policy"])]

/-- `AITriageAgent.PRIORITY_KEYWORDS`, in Python dict insertion order. -/
def PRIORITY_KEYWORDS : List (String × List String) :=
  [("High", ["critical", "down", "outage", "urgent", "production", "security", "vulnerability"]),
   ("Medium", ["slow", "intermittent", "warning", "issue", "problem"]),
   ("Low", ["request", "inquiry", "question", "enhancement"])]

/-- `AITriageAgent.CATEGORY_SKILLS`. -/
def CATEGORY_SKILLS : List (String × List String) :=
  [("Network", ["Network", "Security"]),
   ("Database", ["Database", "Backend"]),
   ("DevOps", ["DevOps", "Backend"]),
   ("Security", ["Security", "Network"]),
   ("Frontend", ["Frontend"]),
   ("Backend", ["Backend", "Database"]),
   ("Access", ["Access", "Security"]),
   ("Other", ["DevOps", "Backend"])]

/-- `sum(1 for kw in keywords if kw in combined_text)`. -/
def countKw (text : String) (kws : List String) : Nat :=
  (kws.filter (fun kw => containsTok text.toList kw.toList)).length

/-- The category-selection loop of `_triage_with_mock`: running maximum with
strict improvement (`matches > max_matches`), starting from `("Other", 0)`. -/
def pickCat (text : String) : List (String × List String) → String → Nat → String
  | [], best, _ => best
  | (cat, kws) :: rest, best, best_count =>
    let mcount := countKw text kws
    if best_count < mcount then pickCat text rest cat mcount
    else pickCat text rest best best_count

/-- Category chosen by the mock classifier for the lowercased combined text. -/
def mockCategory (text : String) : String := pickCat text CATEGORY_KEYWORDS "Other" 0

/-- The priority-selection loop of `_triage_with_mock`: first tier with any
keyword hit, defaulting to `"Medium"`. -/
def pickPri (text : String) : List (String × List String) → String
  | [] => "Medium"
  | (pri, kws) :: rest =>
    if kws.any (fun kw => containsTok text.toList kw.toList) then pri
    else pickPri text rest

/-- Priority chosen by the mock classifier for the lowercased combined text. -/
def mockPriority (text : String) : String := pickPri text PRIORITY_KEYWORDS

/-- Spec-side restatement of the priority rule: the first tier, in the fixed
High → Medium → Low order, whose keyword set has at least one substring match;
`"Medium"` when no tier matches. -/
def specPriority (text : String) : String :=
  match PRIORITY_KEYWORDS.find? (fun p => p.2.any (fun kw => containsTok text.toList kw.toList)) with
  | some p => p.1
  | none => "Medium"

/-- Ticket records of the classifier: a string-keyed dict, modelled as an
association list (first binding wins on lookup, as in a dict). -/
abbrev TicketRec := List (String × String)

/-- Embedding of `ticket.get(k, d)`. -/
def pyGet (t : TicketRec) (k d : String) : String := (t.lookup k).getD d

/-- Embedding of the dict assignment `ticket[k] = v`: overwrite the binding
in place when the key exists, append it otherwise. -/
def setKey (k v : String) : TicketRec → TicketRec
  | [] => [(k, v)]
  | (k0, v0) :: rest => if k0 = k then (k, v) :: rest else (k0, v0) :: setKey k v rest

/-- The five enrichment keys written by the classifier. -/
def ENRICH_KEYS : List String :=
  ["ai_category", "ai_priority", "ai_skills", "ai_summary", "triage_method"]

/-- Embedding of `AITriageAgent._triage_with_mock` (the timestamp-free part
is exact: it writes the five enrichment keys and returns the same record). -/
def triage_with_mock (ticket : TicketRec) (summary description : String) : TicketRec :=
  let combined_text := pyLower (summary ++ " " ++ description)
  let category := mockCategory combined_text
  let priority := mockPriority combined_text
  let required_skills := (CATEGORY_SKILLS.lookup category).getD ["Other"]
  let summary_text := category ++ " issue: " ++ summary.take 80 ++ "..."
  setKey "triage_method" "Mock Rule-Based"
    (setKey "ai_summary" summary_text
      (setKey "ai_skills" (String.intercalate ", " required_skills)
        (setKey "ai_priority" priority
          (setKey "ai_category" category ticket))))

/-- Embedding of `AITriageAgent.triage_ticket` on the rule-based path
(`openai_available = False`). -/
def triage_ticket (ticket : TicketRec) : TicketRec :=
  let ticket_text :=
    if ticket.lookup "source" = some "ServiceNow" then pyGet ticket "short_description" ""
    else pyGet ticket "summary" ""
  let full_description := pyGet ticket "description" ticket_text
  triage_with_mock ticket ticket_text full_description

/-! ## Assignment engine (`src/engineer_assignment.py`) -/

/-- An engineer record (`engineer.get("max_workload", 5)` and
`engineer.get("skills", [])` make the fields total). -/
structure Engineer where
  name : String
  skills : List String
  availability : String
  max_workload : Nat
deriving DecidableEq

/-- The engine-side view of a ticket: the fields `find_best_engineer`,
`assign_ticket` and `assign_tickets` actually read and write.  A missing
`ai_skills` / `ai_priority` key corresponds to `""` (the `get` defaults make
the two representations agree). -/
structure Ticket where
  source : String
  number : Option String
  key : Option String
  ai_skills : String
  ai_priority : String
  assigned_engineer : Option String
deriving DecidableEq

/-- One row of `data/reassign_log.parquet` as written by
`DataStorage.log_assignment` (the wall-clock timestamp is omitted). -/
structure AuditEntry where
  ticket_id : String
  engineer : Option String
  is_fallback : Bool
  reason : String
deriving DecidableEq

/-- Mutable state of an `EngineerAssignmentEngine` instance: the roster, the
workload dict (total function; its key set is always the roster's name set),
the audit log held by the storage collaborator, and `current_ticket_id`
(`none` models the attribute not being set). -/
structure EngineState where
  engineers : List Engineer
  wl : String → Nat
  audit : List AuditEntry
  current_ticket_id : Option String

/-- `EngineerAssignmentEngine.__init__`: all workload counters start at 0. -/
def initState (engs : List Engineer) : EngineState :=
  { engineers := engs, wl := fun _ => 0, audit := [], current_ticket_id := none }

/-- The three shapes the `required_skills` argument of
`calculate_skill_match_score` can take (plus Python `None`). -/
inductive SkillsInput where
  | null : SkillsInput
  | list : List String → SkillsInput
  | str : String → SkillsInput

/-- Python truthiness of the `required_skills` argument
(`if not required_skills`). -/
def SkillsInput.isFalsy : SkillsInput → Bool
  | .null => true
  | .list ts => ts.isEmpty
  | .str s => s == ""

/-- `set(skill.strip().lower() for skill in engineer.get("skills", []))`
as a token list (deduplicated at use sites). -/
def engTokens (skills : List String) : List (List Char) :=
  skills.map (fun s => lowerL (pyStripL isWsC s.toList))

/-- The string branch of skill normalization: strip, remove one matching
pair of surrounding brackets, split on commas, strip whitespace and quotes
from each part, drop empties, lowercase. -/
def normStrTokens (s : List Char) : List (List Char) :=
  let s1 := pyStripL isWsC s
  let s2 := if s1.head? = some '[' ∧ s1.getLast? = some ']' then (s1.drop 1).dropLast else s1
  let parts := (pySplitL ',' s2).filter (fun p => pyStripL isWsC p ≠ [])
  let toks := parts.map (fun p => pyStripL isQuoteC (pyStripL isWsC p))
  (toks.filter (fun p => p ≠ [])).map lowerL

/-- The list branch of skill normalization:
`set(s.strip().lower() for s in required_skills if s)`. -/
def normListTokens (ts : List (List Char)) : List (List Char) :=
  (ts.filter (fun t => t ≠ [])).map (fun t => lowerL (pyStripL isWsC t))

/-- The normalized required-skill tokens for each input shape. -/
def pyNormalize : SkillsInput → List (List Char)
  | .null => []
  | .list ts => normListTokens (ts.map String.toList)
  | .str s => normStrTokens s.toList

/-- Embedding of `EngineerAssignmentEngine.calculate_skill_match_score`. -/
def calculate_skill_match_score (e : Engineer) (required_skills : SkillsInput) : ℚ :=
  if required_skills.isFalsy then 1/2
  else
    let required := (pyNormalize required_skills).dedup
    if required = [] then 1/2
    else
      let engineer_skills := (engTokens e.skills).dedup
      ((engineer_skills.filter (fun t => t ∈ required)).length : ℚ) / (required.length : ℚ)

/-- Embedding of `EngineerAssignmentEngine.calculate_workload_score`. -/
def calculate_workload_score (wl : String → Nat) (e : Engineer) : ℚ :=
  if e.max_workload ≤ wl e.name then 0
  else 1 - (wl e.name : ℚ) / (e.max_workload : ℚ)

/-- Embedding of `EngineerAssignmentEngine.get_availability_score`. -/
def get_availability_score (e : Engineer) : ℚ :=
  if pyLower e.availability = "available" then 1 else 0

/-- The combined score of the normal selection path, including the
degenerate-skill override `0.1 + workload_score * workload_weight`. -/
def combinedScore (wl : String → Nat) (sw ww : ℚ) (req : SkillsInput) (e : Engineer) : ℚ :=
  let skill_score := calculate_skill_match_score e req
  let workload_score := calculate_workload_score wl e
  if skill_score = 0 then 1/10 + workload_score * ww
  else skill_score * sw + workload_score * ww

/-- The scan over `self.engineers` in `find_best_engineer`: skip unavailable
engineers, skip at-capacity engineers unless `allow_overflow`, keep a running
best with strict improvement (`combined_score > best_score`). -/
def fbLoop (wl : String → Nat) (sw ww : ℚ) (ov : Bool) (req : SkillsInput) :
    List Engineer → Option String → ℚ → Option String
  | [], best, _ => best
  | e :: rest, best, best_score =>
    if get_availability_score e = 0 then fbLoop wl sw ww ov req rest best best_score
    else if calculate_workload_score wl e = 0 ∧ ov = false then
      fbLoop wl sw ww ov req rest best best_score
    else
      let c := combinedScore wl sw ww req e
      if best_score < c then fbLoop wl sw ww ov req rest (some e.name) c
      else fbLoop wl sw ww ov req rest best best_score

/-- The least-loaded scan of the guaranteed-assignment fallback
(`min_load is None or load < min_load`). -/
def fallbackLoop (wl : String → Nat) : List Engineer → Option Nat → Option String → Option String
  | [], _, chosen => chosen
  | e :: rest, min_load, chosen =>
    match min_load with
    | none => fallbackLoop wl rest (some (wl e.name)) (some e.name)
    | some m =>
      if wl e.name < m then fallbackLoop wl rest (some (wl e.name)) (some e.name)
      else fallbackLoop wl rest min_load chosen

/-- The candidate filter of the normal selection path: the two skip
conditions of the `find_best_engineer` loop, as a Boolean. -/
def survivesB (wl : String → Nat) (ov : Bool) (e : Engineer) : Bool :=
  if get_availability_score e = 0 then false
  else if calculate_workload_score wl e = 0 ∧ ov = false then false
  else true

/-- The reason string written on every fallback assignment. -/
def FALLBACK_REASON : String := "No suitable engineer found (fallback to least loaded)"

/-- Embedding of `DataStorage.log_assignment`: append one audit row. -/
def log_assignment (st : EngineState) (ticket_id : String) (engineer : Option String)
    (fb : Bool) (reason : String) : EngineState :=
  { st with audit := st.audit ++ [⟨ticket_id, engineer, fb, reason⟩] }

/-- The candidate list of the guaranteed-assignment fallback: the available
engineers, or the full roster when none is available
(`available_candidates if available_candidates else list(self.engineers)`). -/
def fallbackCands (st : EngineState) : List Engineer :=
  let available_candidates :=
    st.engineers.filter (fun e => decide (get_availability_score e = 1))
  if available_candidates.isEmpty then st.engineers else available_candidates

/-- Embedding of `EngineerAssignmentEngine.find_best_engineer`: the normal
weighted scan, then the audited least-loaded fallback when the scan selected
nobody. -/
def find_best_engineer (st : EngineState) (ticket : Ticket) (sw ww : ℚ) (ov : Bool) :
    Option String × EngineState :=
  let req := SkillsInput.str ticket.ai_skills
  match fbLoop st.wl sw ww ov req st.engineers none (-1) with
  | some best => (some best, st)
  | none =>
    let chosen := fallbackLoop st.wl (fallbackCands st) none none
    let ticket_id := st.current_ticket_id.getD "Unknown"
    (chosen, log_assignment st ticket_id chosen true FALLBACK_REASON)

/-- Python `a or b` on an optional string: `None` and `""` are falsy. -/
def pyOrS (o : Option String) (d : String) : String :=
  match o with
  | some s => if s = "" then d else s
  | none => d

/-- `ticket.get("number") or ticket.get("key") or "Unknown"`. -/
def pyTicketId (t : Ticket) : String := pyOrS t.number (pyOrS t.key "Unknown")

/-- Embedding of `EngineerAssignmentEngine.assign_ticket`.  Note the Python
truthiness test `if assigned_engineer:`: an empty-string engineer name is
falsy and falls into the `"Unassigned"` branch without a workload update. -/
def assign_ticket (st : EngineState) (t : Ticket) (sw ww : ℚ) (ov : Bool) :
    Ticket × EngineState :=
  let st1 := { st with current_ticket_id := some (pyTicketId t) }
  let r := find_best_engineer st1 t sw ww ov
  match r.1 with
  | some n =>
    if n = "" then ({ t with assigned_engineer := some "Unassigned" }, r.2)
    else
      ({ t with assigned_engineer := some n },
       { r.2 with wl := fun m => if m = n then r.2.wl m + 1 else r.2.wl m })
  | none => ({ t with assigned_engineer := some "Unassigned" }, r.2)

/-- The `priority_order` dict of `assign_tickets`. -/
def priority_order : List (String × Nat) := [("High", 0), ("Medium", 1), ("Low", 2)]

/-- The sort key `priority_order.get(t.get("ai_priority", "Medium"), 1)`:
any value outside the three tiers (including a missing key, i.e. `""`)
ranks as 1, exactly like `"Medium"`. -/
def priorityRank (t : Ticket) : Nat := (priority_order.lookup t.ai_priority).getD 1

/-- The sort relation used for the batch dispatch: ascending priority rank. -/
def rle (a b : Ticket) : Prop := priorityRank a ≤ priorityRank b

instance : DecidableRel rle :=
  fun a b => inferInstanceAs (Decidable (priorityRank a ≤ priorityRank b))

instance : IsTotal Ticket rle := ⟨fun a b => Nat.le_total (priorityRank a) (priorityRank b)⟩

instance : IsTrans Ticket rle := ⟨fun _ _ _ h1 h2 => Nat.le_trans h1 h2⟩

/-- Embedding of `EngineerAssignmentEngine.reset_workload`. -/
def reset_workload (st : EngineState) : EngineState := { st with wl := fun _ => 0 }

/-- The sequential assignment fold of `assign_tickets`. -/
def assignList (sw ww : ℚ) (ov : Bool) : EngineState → List Ticket → List Ticket × EngineState
  | st, [] => ([], st)
  | st, t :: ts =>
    let r := assign_ticket st t sw ww ov
    let rest := assignList sw ww ov r.2 ts
    (r.1 :: rest.1, rest.2)

/-- Embedding of `EngineerAssignmentEngine.assign_tickets`: stable-sort by
priority rank (Python's `sorted` is stable; `List.insertionSort` with this
total preorder realizes the same stable sort), optionally reset the workload
counters, then assign sequentially. -/
def assign_tickets (st : EngineState) (tickets : List Ticket) (sw ww : ℚ)
    (reset : Bool) (ov : Bool) : List Ticket × EngineState :=
  let sorted_tickets := List.insertionSort rle tickets
  let st1 := if reset then reset_workload st else st
  assignList sw ww ov st1 sorted_tickets

/-- `sum(self.workload.values())`: the workload dict's key set is the
engineer-name set of the roster. -/
def wlSum (st : EngineState) : Nat :=
  (((st.engineers.map Engineer.name).dedup).map st.wl).sum

/-- Erase the assignment field; used to compare batch output tickets with
input tickets (assignment is the only field `assign_ticket` writes). -/
def clearAssign (t : Ticket) : Ticket := { t with assigned_engineer := none }

/-- Generic strict-improvement running-maximum scan; `pickCat` and the kept
branch of `fbLoop` are instances of this shape. -/
def gloop {α γ : Type} {β : Type} [LinearOrder β] (f : α → β) (upd : α → γ) :
    List α → γ → β → γ
  | [], b, _ => b
  | a :: l, b, s => if s < f a then gloop f upd l (upd a) (f a) else gloop f upd l b s

/-! ## Dictionary lemmas -/

theorem lookup_setKey (k v k' : String) (t : TicketRec) :
    (setKey k v t).lookup k' = if k' = k then some v else t.lookup k' := by
  induction t with
  | nil =>
    by_cases h : k' = k
    · subst h; simp [setKey, List.lookup_cons]
    · simp [setKey, List.lookup_cons, beq_false_of_ne h, h]
  | cons p rest ih =>
    obtain ⟨k0, v0⟩ := p
    simp only [setKey]
    by_cases h0 : k0 = k
    · rw [if_pos h0]
      subst h0
      by_cases h : k' = k0
      · subst h; simp [List.lookup_cons]
      · simp [List.lookup_cons, beq_false_of_ne h, h]
    · rw [if_neg h0]
      by_cases h : k' = k0
      · subst h
        simp [List.lookup_cons, h0]
      · simp [List.lookup_cons, beq_false_of_ne h, ih]

/-! ## Generic strict-improvement scan: first-argmax characterization -/

theorem gloop_spec {α γ : Type} {β : Type} [LinearOrder β] (f : α → β) (upd : α → γ)
    (l : List α) : ∀ (b : γ) (s : β),
      ((∀ a ∈ l, f a ≤ s) → gloop f upd l b s = b) ∧
      ((∃ a ∈ l, s < f a) →
        ∃ l1 a l2, l = l1 ++ a :: l2 ∧ gloop f upd l b s = upd a ∧ s < f a ∧
          (∀ x ∈ l, f x ≤ f a) ∧ (∀ x ∈ l1, f x < f a)) := by
  induction l with
  | nil =>
    intro b s
    exact ⟨fun _ => rfl, fun h => absurd h (by simp)⟩
  | cons a0 l ih =>
    intro b s
    constructor
    · intro hall
      have h0 : ¬ s < f a0 := not_lt.mpr (hall a0 (List.mem_cons_self a0 l))
      simp only [gloop, if_neg h0]
      exact (ih b s).1 (fun x hx => hall x (List.mem_cons_of_mem a0 hx))
    · intro hex
      by_cases h0 : s < f a0
      · simp only [gloop, if_pos h0]
        by_cases hall : ∀ x ∈ l, f x ≤ f a0
        · refine ⟨[], a0, l, rfl, (ih (upd a0) (f a0)).1 hall, h0, ?_, ?_⟩
          · intro x hx
            rcases List.mem_cons.mp hx with rfl | hx
            · exact le_refl _
            · exact hall x hx
          · intro x hx
            exact absurd hx (List.not_mem_nil x)
        · push_neg at hall
          obtain ⟨x0, hx0, hgt⟩ := hall
          obtain ⟨l1, a, l2, hsplit, hres, hlt, hmax, hstrict⟩ :=
            (ih (upd a0) (f a0)).2 ⟨x0, hx0, hgt⟩
          refine ⟨a0 :: l1, a, l2, by simp [hsplit], hres, lt_trans h0 hlt, ?_, ?_⟩
          · intro x hx
            rcases List.mem_cons.mp hx with rfl | hx
            · exact le_of_lt hlt
            · exact hmax x hx
          · intro x hx
            rcases List.mem_cons.mp hx with rfl | hx
            · exact hlt
            · exact hstrict x hx
      · simp only [gloop, if_neg h0]
        have hex' : ∃ x ∈ l, s < f x := by
          obtain ⟨x, hx, hlt⟩ := hex
          rcases List.mem_cons.mp hx with rfl | hx
          · exact absurd hlt h0
          · exact ⟨x, hx, hlt⟩
        obtain ⟨l1, a, l2, hsplit, hres, hlt, hmax, hstrict⟩ := (ih b s).2 hex'
        have ha0 : f a0 ≤ s := not_lt.mp h0
        refine ⟨a0 :: l1, a, l2, by simp [hsplit], hres, hlt, ?_, ?_⟩
        · intro x hx
          rcases List.mem_cons.mp hx with rfl | hx
          · exact le_trans ha0 (le_of_lt hlt)
          · exact hmax x hx
        · intro x hx
          rcases List.mem_cons.mp hx with rfl | hx
          · exact lt_of_le_of_lt ha0 hlt
          · exact hstrict x hx

theorem pickCat_eq_gloop (text : String) (l : List (String × List String)) :
    ∀ (b : String) (c : Nat),
      pickCat text l b c = gloop (fun p => countKw text p.2) Prod.fst l b c := by
  induction l with
  | nil => intro b c; rfl
  | cons p rest ih =>
    intro b c
    obtain ⟨cat, kws⟩ := p
    by_cases h : c < countKw text kws <;>
      simp only [pickCat, gloop, h, if_true, if_false, ite_true, ite_false, ih]

theorem pickPri_eq_find (text : String) (l : List (String × List String)) :
    pickPri text l =
      match l.find? (fun p => p.2.any (fun kw => containsTok text.toList kw.toList)) with
      | some p => p.1
      | none => "Medium" := by
  induction l with
  | nil => rfl
  | cons p rest ih =>
    obtain ⟨pri, kws⟩ := p
    have e1 : pickPri text ((pri, kws) :: rest) =
        if (kws.any (fun kw => containsTok text.toList kw.toList)) = true then pri
        else pickPri text rest := by
      simp only [pickPri]
    rw [e1]
    by_cases h : (kws.any (fun kw => containsTok text.toList kw.toList)) = true
    · have hf : List.find?
          (fun p : String × List String => p.2.any (fun kw => containsTok text.toList kw.toList))
          ((pri, kws) :: rest) = some (pri, kws) := List.find?_cons_of_pos _ h
      rw [if_pos h, hf]
    · have hf : List.find?
          (fun p : String × List String => p.2.any (fun kw => containsTok text.toList kw.toList))
          ((pri, kws) :: rest) =
          List.find?
            (fun p : String × List String => p.2.any (fun kw => containsTok text.toList kw.toList))
            rest := List.find?_cons_of_neg _ h
      rw [if_neg h, hf, ih]

/-! ## Classifier claims -/

/-- C10: rule-based classification writes exactly the five enrichment keys
of `ENRICH_KEYS` into the record it was given (in place, returning that same
record): every other key keeps its binding unchanged, and all five enrichment
keys are present afterwards. -/
theorem triage_frame_thm (t : TicketRec) (s d : String) (k : String)
    (hk : k ∉ ENRICH_KEYS) :
    (triage_with_mock t s d).lookup k = t.lookup k ∧
      ∀ k' ∈ ENRICH_KEYS, ((triage_with_mock t s d).lookup k').isSome := by
  simp only [ENRICH_KEYS, List.mem_cons, List.not_mem_nil, or_false, not_or] at hk
  obtain ⟨h1, h2, h3, h4, h5⟩ := hk
  constructor
  · simp only [triage_with_mock, lookup_setKey, if_neg h1, if_neg h2, if_neg h3, if_neg h4,
      if_neg h5]
  · intro k' hk'
    simp only [ENRICH_KEYS, List.mem_cons, List.not_mem_nil, or_false] at hk'
    rcases hk' with rfl | rfl | rfl | rfl | rfl <;> simp [triage_with_mock, lookup_setKey]

/-- Witness for C10 at a concrete record. -/
theorem triage_frame_wit :
    (triage_with_mock [("source", "Jira")] "vpn down" "").lookup "source" =
        [(("source" : String), ("Jira" : String))].lookup "source" ∧
      ∀ k' ∈ ENRICH_KEYS,
        ((triage_with_mock [("source", "Jira")] "vpn down" "").lookup k').isSome :=
  triage_frame_thm [("source", "Jira")] "vpn down" "" "source" (by decide)

/-- C9: the classifier sets `ai_priority` to the first tier, in the fixed
order High, Medium, Low, with at least one keyword occurring in the
lowercased combined text, and to `"Medium"` when no tier matches
(`specPriority` is that rule verbatim). -/
theorem mock_priority_thm (t : TicketRec) (s d : String) :
    (triage_with_mock t s d).lookup "ai_priority" =
      some (specPriority (pyLower (s ++ " " ++ d))) := by
  have h : (triage_with_mock t s d).lookup "ai_priority" =
      some (mockPriority (pyLower (s ++ " " ++ d))) := by
    simp [triage_with_mock, lookup_setKey]
  rw [h, mockPriority, pickPri_eq_find, specPriority]

/-- C3: the classifier sets `ai_category` to `"Other"` when no category
keyword occurs in the lowercased combined text; otherwise to the first
category, in the fixed taxonomy order of `CATEGORY_KEYWORDS`, whose match
count attains the (strictly positive) maximum — so ties resolve to the first
category in taxonomy order. -/
theorem mock_category_thm (t : TicketRec) (s d : String) :
    ((∀ p ∈ CATEGORY_KEYWORDS, countKw (pyLower (s ++ " " ++ d)) p.2 = 0) →
       (triage_with_mock t s d).lookup "ai_category" = some "Other") ∧
    ((∃ p ∈ CATEGORY_KEYWORDS, 0 < countKw (pyLower (s ++ " " ++ d)) p.2) →
       ∃ l1 p l2, CATEGORY_KEYWORDS = l1 ++ p :: l2 ∧
         (triage_with_mock t s d).lookup "ai_category" = some p.1 ∧
         0 < countKw (pyLower (s ++ " " ++ d)) p.2 ∧
         (∀ q ∈ CATEGORY_KEYWORDS,
           countKw (pyLower (s ++ " " ++ d)) q.2 ≤ countKw (pyLower (s ++ " " ++ d)) p.2) ∧
         (∀ q ∈ l1,
           countKw (pyLower (s ++ " " ++ d)) q.2 < countKw (pyLower (s ++ " " ++ d)) p.2)) := by
  have hlook : (triage_with_mock t s d).lookup "ai_category" =
      some (mockCategory (pyLower (s ++ " " ++ d))) := by
    simp [triage_with_mock, lookup_setKey]
  have hg : mockCategory (pyLower (s ++ " " ++ d)) =
      gloop (fun p => countKw (pyLower (s ++ " " ++ d)) p.2) Prod.fst CATEGORY_KEYWORDS
        "Other" 0 := by
    rw [mockCategory, pickCat_eq_gloop]
  constructor
  · intro hall
    rw [hlook, hg,
      (gloop_spec (fun p => countKw (pyLower (s ++ " " ++ d)) p.2) Prod.fst CATEGORY_KEYWORDS
        "Other" 0).1 (fun a ha => le_of_eq (hall a ha))]
  · intro hex
    obtain ⟨l1, p, l2, hsplit, hres, hpos, hmax, hstrict⟩ :=
      (gloop_spec (fun q => countKw (pyLower (s ++ " " ++ d)) q.2) Prod.fst CATEGORY_KEYWORDS
        "Other" 0).2 hex
    exact ⟨l1, p, l2, hsplit, by rw [hlook, hg, hres], hpos, hmax, hstrict⟩

/-- Witness for C3 at a concrete ticket text with a keyword hit. -/
theorem mock_category_wit :
    ∃ l1 p l2, CATEGORY_KEYWORDS = l1 ++ p :: l2 ∧
      (triage_with_mock [] "VPN down" "").lookup "ai_category" = some p.1 ∧
      0 < countKw (pyLower ("VPN down" ++ " " ++ "")) p.2 ∧
      (∀ q ∈ CATEGORY_KEYWORDS,
        countKw (pyLower ("VPN down" ++ " " ++ "")) q.2 ≤
          countKw (pyLower ("VPN down" ++ " " ++ "")) p.2) ∧
      (∀ q ∈ l1,
        countKw (pyLower ("VPN down" ++ " " ++ "")) q.2 <
          countKw (pyLower ("VPN down" ++ " " ++ "")) p.2) :=
  (mock_category_thm [] "VPN down" "").2 (by decide)

/-! ## Engine lemmas: loops -/

theorem fallbackLoop_aux (wl : String → Nat) (l : List Engineer) :
    ∀ (m : Nat) (c : String),
      ((∀ e ∈ l, m ≤ wl e.name) → fallbackLoop wl l (some m) (some c) = some c) ∧
      ((∃ e ∈ l, wl e.name < m) →
        ∃ l1 e l2, l = l1 ++ e :: l2 ∧ fallbackLoop wl l (some m) (some c) = some e.name ∧
          wl e.name < m ∧ (∀ x ∈ l, wl e.name ≤ wl x.name) ∧
          (∀ x ∈ l1, wl e.name < wl x.name)) := by
  induction l with
  | nil =>
    intro m c
    exact ⟨fun _ => rfl, fun h => absurd h (by simp)⟩
  | cons e0 l ih =>
    intro m c
    constructor
    · intro hall
      have h0 : ¬ wl e0.name < m := not_lt.mpr (hall e0 (List.mem_cons_self e0 l))
      simp only [fallbackLoop, if_neg h0]
      exact (ih m c).1 (fun x hx => hall x (List.mem_cons_of_mem e0 hx))
    · intro hex
      by_cases h0 : wl e0.name < m
      · simp only [fallbackLoop, if_pos h0]
        by_cases hall : ∀ x ∈ l, wl e0.name ≤ wl x.name
        · refine ⟨[], e0, l, rfl, (ih (wl e0.name) e0.name).1 hall, h0, ?_, ?_⟩
          · intro x hx
            rcases List.mem_cons.mp hx with rfl | hx
            · exact le_refl _
            · exact hall x hx
          · intro x hx
            exact absurd hx (List.not_mem_nil x)
        · push_neg at hall
          obtain ⟨x0, hx0, hgt⟩ := hall
          obtain ⟨l1, e, l2, hsplit, hres, hlt, hmin, hstrict⟩ :=
            (ih (wl e0.name) e0.name).2 ⟨x0, hx0, hgt⟩
          refine ⟨e0 :: l1, e, l2, by simp [hsplit], hres, lt_trans hlt h0, ?_, ?_⟩
          · intro x hx
            rcases List.mem_cons.mp hx with rfl | hx
            · exact le_of_lt hlt
            · exact hmin x hx
          · intro x hx
            rcases List.mem_cons.mp hx with rfl | hx
            · exact hlt
            · exact hstrict x hx
      · simp only [fallbackLoop, if_neg h0]
        have hex' : ∃ x ∈ l, wl x.name < m := by
          obtain ⟨x, hx, hlt⟩ := hex
          rcases List.mem_cons.mp hx with rfl | hx
          · exact absurd hlt h0
          · exact ⟨x, hx, hlt⟩
        obtain ⟨l1, e, l2, hsplit, hres, hlt, hmin, hstrict⟩ := (ih m c).2 hex'
        have he0 : m ≤ wl e0.name := not_lt.mp h0
        refine ⟨e0 :: l1, e, l2, by simp [hsplit], hres, hlt, ?_, ?_⟩
        · intro x hx
          rcases List.mem_cons.mp hx with rfl | hx
          · exact le_trans (le_of_lt hlt) he0
          · exact hmin x hx
        · intro x hx
          rcases List.mem_cons.mp hx with rfl | hx
          · exact lt_of_lt_of_le hlt he0
          · exact hstrict x hx

theorem fallbackLoop_spec (wl : String → Nat) (l : List Engineer) (hne : l ≠ []) :
    ∃ l1 e l2, l = l1 ++ e :: l2 ∧ fallbackLoop wl l none none = some e.name ∧
      (∀ x ∈ l, wl e.name ≤ wl x.name) ∧ (∀ x ∈ l1, wl e.name < wl x.name) := by
  match l, hne with
  | e0 :: l, _ =>
    have hstep : fallbackLoop wl (e0 :: l) none none =
        fallbackLoop wl l (some (wl e0.name)) (some e0.name) := rfl
    by_cases hall : ∀ x ∈ l, wl e0.name ≤ wl x.name
    · refine ⟨[], e0, l, rfl, ?_, ?_, ?_⟩
      · rw [hstep]
        exact (fallbackLoop_aux wl l (wl e0.name) e0.name).1 hall
      · intro x hx
        rcases List.mem_cons.mp hx with rfl | hx
        · exact le_refl _
        · exact hall x hx
      · intro x hx
        exact absurd hx (List.not_mem_nil x)
    · push_neg at hall
      obtain ⟨x0, hx0, hlt0⟩ := hall
      obtain ⟨l1, e, l2, hsplit, hres, hlt, hmin, hstrict⟩ :=
        (fallbackLoop_aux wl l (wl e0.name) e0.name).2 ⟨x0, hx0, hlt0⟩
      refine ⟨e0 :: l1, e, l2, by simp [hsplit], by rw [hstep]; exact hres, ?_, ?_⟩
      · intro x hx
        rcases List.mem_cons.mp hx with rfl | hx
        · exact le_of_lt hlt
        · exact hmin x hx
      · intro x hx
        rcases List.mem_cons.mp hx with rfl | hx
        · exact hlt
        · exact hstrict x hx

theorem fbLoop_eq_gloop (wl : String → Nat) (sw ww : ℚ) (ov : Bool) (req : SkillsInput)
    (l : List Engineer) : ∀ (b : Option String) (s : ℚ),
      fbLoop wl sw ww ov req l b s =
        gloop (combinedScore wl sw ww req) (fun e => some e.name)
          (l.filter (survivesB wl ov)) b s := by
  induction l with
  | nil => intro b s; rfl
  | cons e l ih =>
    intro b s
    by_cases h1 : get_availability_score e = 0
    · have hs : survivesB wl ov e = false := by simp [survivesB, h1]
      rw [List.filter_cons_of_neg (by rw [hs]; exact Bool.false_ne_true)]
      simp only [fbLoop, if_pos h1]
      exact ih b s
    · by_cases h2 : calculate_workload_score wl e = 0 ∧ ov = false
      · have hs : survivesB wl ov e = false := by simp [survivesB, h1, h2]
        rw [List.filter_cons_of_neg (by rw [hs]; exact Bool.false_ne_true)]
        simp only [fbLoop, if_neg h1, if_pos h2]
        exact ih b s
      · have hs : survivesB wl ov e = true := by simp [survivesB, h1, h2]
        rw [List.filter_cons_of_pos hs]
        simp only [fbLoop, if_neg h1, if_neg h2, gloop]
        by_cases h3 : s < combinedScore wl sw ww req e
        · rw [if_pos h3, if_pos h3, ih]
        · rw [if_neg h3, if_neg h3, ih]

theorem survivesB_true_iff (wl : String → Nat) (ov : Bool) (e : Engineer) :
    survivesB wl ov e = true ↔
      ¬ get_availability_score e = 0 ∧
        ¬ (calculate_workload_score wl e = 0 ∧ ov = false) := by
  rw [survivesB]
  split
  · next h => simp [h]
  · next h =>
    split
    · next h2 => simp [h2]
    · next h2 => simp [h, h2]

theorem fbLoop_some_mem (wl : String → Nat) (sw ww : ℚ) (ov : Bool) (req : SkillsInput)
    (l : List Engineer) : ∀ (b : Option String) (s : ℚ) (n : String),
      fbLoop wl sw ww ov req l b s = some n →
      b = some n ∨ ∃ e ∈ l, survivesB wl ov e = true ∧ e.name = n := by
  induction l with
  | nil =>
    intro b s n h
    exact Or.inl h
  | cons e l ih =>
    intro b s n h
    by_cases h1 : get_availability_score e = 0
    · simp only [fbLoop, if_pos h1] at h
      rcases ih b s n h with hb | ⟨x, hx, hsx, hnx⟩
      · exact Or.inl hb
      · exact Or.inr ⟨x, List.mem_cons_of_mem e hx, hsx, hnx⟩
    · by_cases h2 : calculate_workload_score wl e = 0 ∧ ov = false
      · simp only [fbLoop, if_neg h1, if_pos h2] at h
        rcases ih b s n h with hb | ⟨x, hx, hsx, hnx⟩
        · exact Or.inl hb
        · exact Or.inr ⟨x, List.mem_cons_of_mem e hx, hsx, hnx⟩
      · have hs : survivesB wl ov e = true := by simp [survivesB, h1, h2]
        simp only [fbLoop, if_neg h1, if_neg h2] at h
        by_cases h3 : s < combinedScore wl sw ww req e
        · rw [if_pos h3] at h
          rcases ih (some e.name) (combinedScore wl sw ww req e) n h with hb | ⟨x, hx, hsx, hnx⟩
          · exact Or.inr ⟨e, List.mem_cons_self e l, hs, Option.some_injective _ hb⟩
          · exact Or.inr ⟨x, List.mem_cons_of_mem e hx, hsx, hnx⟩
        · rw [if_neg h3] at h
          rcases ih b s n h with hb | ⟨x, hx, hsx, hnx⟩
          · exact Or.inl hb
          · exact Or.inr ⟨x, List.mem_cons_of_mem e hx, hsx, hnx⟩

/-! ## Engine lemmas: scores and state -/

theorem skill_score_nonneg (e : Engineer) (req : SkillsInput) :
    0 ≤ calculate_skill_match_score e req := by
  simp only [calculate_skill_match_score]
  split
  · norm_num
  · split
    · norm_num
    · exact div_nonneg (Nat.cast_nonneg _) (Nat.cast_nonneg _)

theorem workload_score_nonneg (wl : String → Nat) (e : Engineer) :
    0 ≤ calculate_workload_score wl e := by
  rw [calculate_workload_score]
  split
  · exact le_refl 0
  · next h =>
    have hlt : wl e.name < e.max_workload := Nat.lt_of_not_le h
    have hpos : (0 : ℚ) < (e.max_workload : ℚ) := by
      exact_mod_cast Nat.pos_of_ne_zero (fun hz => by omega)
    have hle : (wl e.name : ℚ) ≤ (e.max_workload : ℚ) := by
      exact_mod_cast le_of_lt hlt
    have := (div_le_one hpos).mpr hle
    linarith

theorem workload_score_ne_zero_lt (wl : String → Nat) (e : Engineer)
    (h : calculate_workload_score wl e ≠ 0) : wl e.name < e.max_workload := by
  rw [calculate_workload_score] at h
  by_cases hm : e.max_workload ≤ wl e.name
  · rw [if_pos hm] at h
    exact absurd rfl h
  · exact Nat.lt_of_not_le hm

theorem combined_score_nonneg (wl : String → Nat) (sw ww : ℚ) (req : SkillsInput)
    (e : Engineer) (hsw : 0 ≤ sw) (hww : 0 ≤ ww) : 0 ≤ combinedScore wl sw ww req e := by
  simp only [combinedScore]
  split
  · have h1 : 0 ≤ calculate_workload_score wl e * ww :=
      mul_nonneg (workload_score_nonneg wl e) hww
    linarith
  · exact add_nonneg (mul_nonneg (skill_score_nonneg e req) hsw)
      (mul_nonneg (workload_score_nonneg wl e) hww)

theorem fallbackCands_ne_nil (st : EngineState) (hne : st.engineers ≠ []) :
    fallbackCands st ≠ [] := by
  rw [fallbackCands]
  split
  · exact hne
  · next h => exact fun hn => h (by rw [hn]; rfl)

theorem mem_fallbackCands (st : EngineState) (e : Engineer) (he : e ∈ fallbackCands st) :
    e ∈ st.engineers := by
  rw [fallbackCands] at he
  revert he
  split
  · exact fun he => he
  · exact fun he => List.mem_of_mem_filter he

theorem find_best_state (st : EngineState) (t : Ticket) (sw ww : ℚ) (ov : Bool) :
    (find_best_engineer st t sw ww ov).2.engineers = st.engineers ∧
      (find_best_engineer st t sw ww ov).2.wl = st.wl ∧
      (find_best_engineer st t sw ww ov).2.current_ticket_id = st.current_ticket_id := by
  rw [find_best_engineer]
  split
  · exact ⟨rfl, rfl, rfl⟩
  · exact ⟨rfl, rfl, rfl⟩

theorem find_best_some_of_ne (st : EngineState) (t : Ticket) (sw ww : ℚ) (ov : Bool)
    (hne : st.engineers ≠ []) :
    ∃ n, (find_best_engineer st t sw ww ov).1 = some n ∧
      n ∈ st.engineers.map Engineer.name := by
  rw [find_best_engineer]
  cases hfb : fbLoop st.wl sw ww ov (SkillsInput.str t.ai_skills) st.engineers none (-1) with
  | some best =>
    refine ⟨best, rfl, ?_⟩
    rcases fbLoop_some_mem st.wl sw ww ov (SkillsInput.str t.ai_skills) st.engineers
        none (-1) best hfb with hb | ⟨e, he, _, hname⟩
    · exact absurd hb (by simp)
    · exact List.mem_map.mpr ⟨e, he, hname⟩
  | none =>
    obtain ⟨l1, e, l2, hsplit, hres, _, _⟩ :=
      fallbackLoop_spec st.wl (fallbackCands st) (fallbackCands_ne_nil st hne)
    refine ⟨e.name, by simp [hres], ?_⟩
    have hmem : e ∈ fallbackCands st := by
      rw [hsplit]
      exact List.mem_append_right l1 (List.mem_cons_self e l2)
    exact List.mem_map.mpr ⟨e, mem_fallbackCands st e hmem, rfl⟩

/-! ## Claims about `find_best_engineer` -/

/-- C2: when no engineer survives the candidate filter (each one is either
unavailable, or at max workload with `allow_overflow` off),
`find_best_engineer` picks the least-loaded engineer of `fallbackCands`
(the available engineers, or the full roster when none is available), with
ties broken by first-seen order, and appends an audit entry with
`is_fallback = true` and the fallback reason. -/
theorem find_best_engineer_fallback_thm (st : EngineState) (t : Ticket) (sw ww : ℚ)
    (ov : Bool) (hne : st.engineers ≠ [])
    (hall : ∀ e ∈ st.engineers, get_availability_score e = 0 ∨
      (calculate_workload_score st.wl e = 0 ∧ ov = false)) :
    ∃ l1 e l2, fallbackCands st = l1 ++ e :: l2 ∧
      (find_best_engineer st t sw ww ov).1 = some e.name ∧
      (∀ x ∈ fallbackCands st, st.wl e.name ≤ st.wl x.name) ∧
      (∀ x ∈ l1, st.wl e.name < st.wl x.name) ∧
      (find_best_engineer st t sw ww ov).2.audit = st.audit ++
        [⟨st.current_ticket_id.getD "Unknown", some e.name, true, FALLBACK_REASON⟩] := by
  have hfilter : st.engineers.filter (survivesB st.wl ov) = [] := by
    rw [List.filter_eq_nil_iff]
    intro e he
    rcases hall e he with h1 | h2
    · simp [survivesB, h1]
    · simp [survivesB, h2.1, h2.2]
  have hfb : fbLoop st.wl sw ww ov (SkillsInput.str t.ai_skills) st.engineers none (-1) =
      none := by
    rw [fbLoop_eq_gloop, hfilter]
    rfl
  obtain ⟨l1, e, l2, hsplit, hres, hmin, hstrict⟩ :=
    fallbackLoop_spec st.wl (fallbackCands st) (fallbackCands_ne_nil st hne)
  refine ⟨l1, e, l2, hsplit, ?_, hmin, hstrict, ?_⟩
  · rw [find_best_engineer]
    simp only [hfb, hres]
  · rw [find_best_engineer]
    simp only [hfb, hres, log_assignment]

/-- Witness for C2: one engineer, unavailable. -/
theorem find_best_engineer_fallback_wit :
    ∃ l1 e l2,
      fallbackCands (initState [⟨"Ann", ["Network"], "busy", 5⟩]) = l1 ++ e :: l2 ∧
      (find_best_engineer (initState [⟨"Ann", ["Network"], "busy", 5⟩])
        ⟨"Jira", none, none, "", "", none⟩ 1 1 false).1 = some e.name ∧
      (∀ x ∈ fallbackCands (initState [⟨"Ann", ["Network"], "busy", 5⟩]),
        (initState [⟨"Ann", ["Network"], "busy", 5⟩]).wl e.name ≤
          (initState [⟨"Ann", ["Network"], "busy", 5⟩]).wl x.name) ∧
      (∀ x ∈ l1,
        (initState [⟨"Ann", ["Network"], "busy", 5⟩]).wl e.name <
          (initState [⟨"Ann", ["Network"], "busy", 5⟩]).wl x.name) ∧
      (find_best_engineer (initState [⟨"Ann", ["Network"], "busy", 5⟩])
          ⟨"Jira", none, none, "", "", none⟩ 1 1 false).2.audit =
        (initState [⟨"Ann", ["Network"], "busy", 5⟩]).audit ++
          [⟨((initState [⟨"Ann", ["Network"], "busy", 5⟩]).current_ticket_id).getD "Unknown",
            some e.name, true, FALLBACK_REASON⟩] :=
  find_best_engineer_fallback_thm (initState [⟨"Ann", ["Network"], "busy", 5⟩])
    ⟨"Jira", none, none, "", "", none⟩ 1 1 false (by decide)
    (by
      intro e he
      rcases List.mem_singleton.mp he with rfl
      left
      decide)

/-- C4: with nonnegative weights, whenever some engineer survives the
candidate filter, the normal selection path wins: each candidate's combined
score is `skill * skill_weight + workload * workload_weight`, overridden to
`0.1 + workload * workload_weight` when the skill score is `0.0`; the winner
is the first candidate (in roster order) attaining the strictly largest
combined score, and no audit entry is produced. -/
theorem find_best_engineer_normal_thm (st : EngineState) (t : Ticket) (sw ww : ℚ)
    (ov : Bool) (hsw : 0 ≤ sw) (hww : 0 ≤ ww)
    (hne : st.engineers.filter (survivesB st.wl ov) ≠ []) :
    (∀ e : Engineer, combinedScore st.wl sw ww (SkillsInput.str t.ai_skills) e =
       if calculate_skill_match_score e (SkillsInput.str t.ai_skills) = 0
       then 1/10 + calculate_workload_score st.wl e * ww
       else calculate_skill_match_score e (SkillsInput.str t.ai_skills) * sw +
         calculate_workload_score st.wl e * ww) ∧
    ∃ l1 e l2, st.engineers.filter (survivesB st.wl ov) = l1 ++ e :: l2 ∧
      (find_best_engineer st t sw ww ov).1 = some e.name ∧
      (find_best_engineer st t sw ww ov).2 = st ∧
      (∀ x ∈ st.engineers.filter (survivesB st.wl ov),
        combinedScore st.wl sw ww (SkillsInput.str t.ai_skills) x ≤
          combinedScore st.wl sw ww (SkillsInput.str t.ai_skills) e) ∧
      (∀ x ∈ l1,
        combinedScore st.wl sw ww (SkillsInput.str t.ai_skills) x <
          combinedScore st.wl sw ww (SkillsInput.str t.ai_skills) e) := by
  refine ⟨fun e => rfl, ?_⟩
  obtain ⟨e0, he0⟩ := List.exists_mem_of_ne_nil _ hne
  have hex : ∃ x ∈ st.engineers.filter (survivesB st.wl ov),
      (-1 : ℚ) < combinedScore st.wl sw ww (SkillsInput.str t.ai_skills) x :=
    ⟨e0, he0, lt_of_lt_of_le (by norm_num)
      (combined_score_nonneg st.wl sw ww (SkillsInput.str t.ai_skills) e0 hsw hww)⟩
  obtain ⟨l1, e, l2, hsplit, hres, _, hmax, hstrict⟩ :=
    (gloop_spec (combinedScore st.wl sw ww (SkillsInput.str t.ai_skills))
      (fun e => some e.name) (st.engineers.filter (survivesB st.wl ov)) none (-1)).2 hex
  have hfb : fbLoop st.wl sw ww ov (SkillsInput.str t.ai_skills) st.engineers none (-1) =
      some e.name := by
    rw [fbLoop_eq_gloop, hres]
  refine ⟨l1, e, l2, hsplit, ?_, ?_, hmax, hstrict⟩
  · rw [find_best_engineer]
    simp only [hfb]
  · rw [find_best_engineer]
    simp only [hfb]

-- Witness for C4: two available engineers, the first skill-matched.
attribute [local semireducible] Rat.add Rat.mul Rat.sub Rat.inv in
theorem find_best_engineer_normal_wit :
    (∀ e : Engineer,
      combinedScore (initState [⟨"Ann", ["network"], "available", 5⟩,
          ⟨"Bob", [], "available", 5⟩]).wl 1 1 (SkillsInput.str "network") e =
        if calculate_skill_match_score e (SkillsInput.str "network") = 0
        then 1/10 + calculate_workload_score (initState [⟨"Ann", ["network"], "available", 5⟩,
          ⟨"Bob", [], "available", 5⟩]).wl e * 1
        else calculate_skill_match_score e (SkillsInput.str "network") * 1 +
          calculate_workload_score (initState [⟨"Ann", ["network"], "available", 5⟩,
            ⟨"Bob", [], "available", 5⟩]).wl e * 1) ∧
    ∃ l1 e l2,
      (initState [⟨"Ann", ["network"], "available", 5⟩,
          ⟨"Bob", [], "available", 5⟩]).engineers.filter
        (survivesB (initState [⟨"Ann", ["network"], "available", 5⟩,
          ⟨"Bob", [], "available", 5⟩]).wl false) = l1 ++ e :: l2 ∧
      (find_best_engineer (initState [⟨"Ann", ["network"], "available", 5⟩,
          ⟨"Bob", [], "available", 5⟩])
        ⟨"Jira", none, none, "network", "High", none⟩ 1 1 false).1 = some e.name ∧
      (find_best_engineer (initState [⟨"Ann", ["network"], "available", 5⟩,
          ⟨"Bob", [], "available", 5⟩])
        ⟨"Jira", none, none, "network", "High", none⟩ 1 1 false).2 =
        initState [⟨"Ann", ["network"], "available", 5⟩, ⟨"Bob", [], "available", 5⟩] ∧
      (∀ x ∈ (initState [⟨"Ann", ["network"], "available", 5⟩,
          ⟨"Bob", [], "available", 5⟩]).engineers.filter
            (survivesB (initState [⟨"Ann", ["network"], "available", 5⟩,
              ⟨"Bob", [], "available", 5⟩]).wl false),
        combinedScore (initState [⟨"Ann", ["network"], "available", 5⟩,
            ⟨"Bob", [], "available", 5⟩]).wl 1 1 (SkillsInput.str "network") x ≤
          combinedScore (initState [⟨"Ann", ["network"], "available", 5⟩,
            ⟨"Bob", [], "available", 5⟩]).wl 1 1 (SkillsInput.str "network") e) ∧
      (∀ x ∈ l1,
        combinedScore (initState [⟨"Ann", ["network"], "available", 5⟩,
            ⟨"Bob", [], "available", 5⟩]).wl 1 1 (SkillsInput.str "network") x <
          combinedScore (initState [⟨"Ann", ["network"], "available", 5⟩,
            ⟨"Bob", [], "available", 5⟩]).wl 1 1 (SkillsInput.str "network") e) :=
  find_best_engineer_normal_thm
    (initState [⟨"Ann", ["network"], "available", 5⟩, ⟨"Bob", [], "available", 5⟩])
    ⟨"Jira", none, none, "network", "High", none⟩ 1 1 false (by norm_num) (by norm_num)
    (by decide)

/-! ## Claims about `assign_ticket` -/

theorem assign_ticket_of_some (st : EngineState) (t : Ticket) (sw ww : ℚ) (ov : Bool)
    (n : String)
    (h : (find_best_engineer { st with current_ticket_id := some (pyTicketId t) }
      t sw ww ov).1 = some n) :
    assign_ticket st t sw ww ov =
      (if n = "" then ({ t with assigned_engineer := some "Unassigned" },
          (find_best_engineer { st with current_ticket_id := some (pyTicketId t) }
            t sw ww ov).2)
        else ({ t with assigned_engineer := some n },
          { (find_best_engineer { st with current_ticket_id := some (pyTicketId t) }
              t sw ww ov).2 with
            wl := fun m => if m = n
              then (find_best_engineer { st with current_ticket_id := some (pyTicketId t) }
                t sw ww ov).2.wl m + 1
              else (find_best_engineer { st with current_ticket_id := some (pyTicketId t) }
                t sw ww ov).2.wl m })) := by
  rw [assign_ticket]
  simp only [h]

theorem assign_ticket_audit (st : EngineState) (t : Ticket) (sw ww : ℚ) (ov : Bool) :
    (assign_ticket st t sw ww ov).2.audit =
      (find_best_engineer { st with current_ticket_id := some (pyTicketId t) }
        t sw ww ov).2.audit := by
  rw [assign_ticket]
  split
  · split
    · rfl
    · rfl
  · rfl

attribute [local semireducible] Rat.add Rat.mul Rat.sub Rat.inv in
/-- C1 (counterexample): the claim "for every non-empty roster,
`assign_ticket` assigns some engineer's name and never `"Unassigned"`" fails
as stated.  With the non-empty roster consisting of one available engineer
whose name is the empty string, the Python truthiness test
`if assigned_engineer:` treats the selected name `""` as falsy and the
ticket is given the sentinel `"Unassigned"`, although an engineer exists
(and no engineer is named `"Unassigned"`). -/
theorem assign_ticket_empty_name_cx :
    (initState [⟨"", ["network"], "available", 5⟩]).engineers ≠ [] ∧
      (∀ e ∈ (initState [⟨"", ["network"], "available", 5⟩]).engineers,
        e.name ≠ "Unassigned") ∧
      (assign_ticket (initState [⟨"", ["network"], "available", 5⟩])
        ⟨"Jira", none, none, "", "", none⟩ 1 1 false).1.assigned_engineer =
        some "Unassigned" :=
  ⟨by decide, by decide, by decide⟩

/-- C1 (amended): for every ticket and every non-empty engineer roster whose
engineers all have non-empty names, `assign_ticket` sets the ticket's
`assigned_engineer` to the name of some engineer in the roster; in
particular, when additionally no engineer is literally named `"Unassigned"`,
the sentinel `"Unassigned"` is never emitted. -/
theorem assign_ticket_total_amended (st : EngineState) (t : Ticket) (sw ww : ℚ) (ov : Bool)
    (hne : st.engineers ≠ []) (hnames : ∀ e ∈ st.engineers, e.name ≠ "") :
    (∃ e ∈ st.engineers, (assign_ticket st t sw ww ov).1.assigned_engineer = some e.name) ∧
    ((∀ e ∈ st.engineers, e.name ≠ "Unassigned") →
      (assign_ticket st t sw ww ov).1.assigned_engineer ≠ some "Unassigned") := by
  obtain ⟨n, hn, hmem⟩ := find_best_some_of_ne
    { st with current_ticket_id := some (pyTicketId t) } t sw ww ov hne
  obtain ⟨e, he, hename⟩ := List.mem_map.mp hmem
  have hnn : n ≠ "" := hename ▸ hnames e he
  have key : (assign_ticket st t sw ww ov).1.assigned_engineer = some n := by
    rw [assign_ticket_of_some st t sw ww ov n hn, if_neg hnn]
  refine ⟨⟨e, he, by rw [key, hename]⟩, ?_⟩
  intro hU heq
  rw [key] at heq
  have : n = "Unassigned" := Option.some_injective _ heq
  exact hU e he (hename.trans this)

/-- Witness for the amended C1. -/
theorem assign_ticket_total_amended_wit :
    (∃ e ∈ (initState [⟨"Ann", ["network"], "available", 5⟩]).engineers,
      (assign_ticket (initState [⟨"Ann", ["network"], "available", 5⟩])
        ⟨"Jira", none, none, "", "", none⟩ 1 1 false).1.assigned_engineer = some e.name) ∧
    ((∀ e ∈ (initState [⟨"Ann", ["network"], "available", 5⟩]).engineers,
        e.name ≠ "Unassigned") →
      (assign_ticket (initState [⟨"Ann", ["network"], "available", 5⟩])
        ⟨"Jira", none, none, "", "", none⟩ 1 1 false).1.assigned_engineer ≠
        some "Unassigned") :=
  assign_ticket_total_amended (initState [⟨"Ann", ["network"], "available", 5⟩])
    ⟨"Jira", none, none, "", "", none⟩ 1 1 false (by decide) (by decide)

/-- C5: with `allow_overflow = false`, every run of `assign_ticket` either
goes through the fallback path — and then appends exactly one audit entry
with `is_fallback = true` — or selects a surviving candidate on the normal
path, leaves the audit log unchanged, and leaves that winning engineer's
workload counter at most their `max_workload`. -/
theorem assign_ticket_capacity_thm (st : EngineState) (t : Ticket) (sw ww : ℚ) :
    (∃ entry, (assign_ticket st t sw ww false).2.audit = st.audit ++ [entry] ∧
        entry.is_fallback = true ∧ entry.reason = FALLBACK_REASON) ∨
    ((assign_ticket st t sw ww false).2.audit = st.audit ∧
      ∃ e ∈ st.engineers, survivesB st.wl false e = true ∧
        (assign_ticket st t sw ww false).2.wl e.name ≤ e.max_workload ∧
        ((assign_ticket st t sw ww false).1.assigned_engineer = some e.name ∨ e.name = "")) := by
  cases hfb : fbLoop st.wl sw ww false (SkillsInput.str t.ai_skills) st.engineers none (-1) with
  | some n =>
    have hr : find_best_engineer { st with current_ticket_id := some (pyTicketId t) }
        t sw ww false = (some n, { st with current_ticket_id := some (pyTicketId t) }) := by
      rw [find_best_engineer]
      simp only [hfb]
    right
    rcases fbLoop_some_mem st.wl sw ww false (SkillsInput.str t.ai_skills) st.engineers
        none (-1) n hfb with hb | ⟨e, he, hsurv, hname⟩
    · exact absurd hb (by simp)
    · have hwlnz : calculate_workload_score st.wl e ≠ 0 := by
        intro h0
        exact ((survivesB_true_iff st.wl false e).mp hsurv).2 ⟨h0, rfl⟩
      have hlt : st.wl e.name < e.max_workload := workload_score_ne_zero_lt st.wl e hwlnz
      have heq := assign_ticket_of_some st t sw ww false n (by rw [hr])
      constructor
      · rw [heq]
        by_cases hn : n = ""
        · rw [if_pos hn, hr]
        · rw [if_neg hn, hr]
      · refine ⟨e, he, hsurv, ?_, ?_⟩
        · rw [heq]
          by_cases hn : n = ""
          · rw [if_pos hn, hr]
            exact le_of_lt hlt
          · rw [if_neg hn, hr]
            show (if e.name = n then st.wl e.name + 1 else st.wl e.name) ≤ e.max_workload
            rw [if_pos hname]
            exact hlt
        · rw [heq]
          by_cases hn : n = ""
          · rw [if_pos hn]
            exact Or.inr (hname.trans hn)
          · rw [if_neg hn]
            exact Or.inl (by rw [hname])
  | none =>
    left
    have hr : (find_best_engineer { st with current_ticket_id := some (pyTicketId t) }
        t sw ww false).2 =
        log_assignment { st with current_ticket_id := some (pyTicketId t) }
          (({ st with current_ticket_id := some (pyTicketId t) } :
              EngineState).current_ticket_id.getD "Unknown")
          (fallbackLoop st.wl
            (fallbackCands { st with current_ticket_id := some (pyTicketId t) }) none none)
          true FALLBACK_REASON := by
      rw [find_best_engineer]
      simp only [hfb]
    refine ⟨⟨(pyTicketId t),
      fallbackLoop st.wl
        (fallbackCands { st with current_ticket_id := some (pyTicketId t) }) none none,
      true, FALLBACK_REASON⟩, ?_, rfl, rfl⟩
    rw [assign_ticket_audit, hr]
    rfl

/-! ## Claims about `assign_tickets`: workload conservation -/

theorem wlSum_update (l : List String) (w : String → Nat) (n : String)
    (hnodup : l.Nodup) (hmem : n ∈ l) :
    (l.map (fun m => if m = n then w m + 1 else w m)).sum = (l.map w).sum + 1 := by
  induction l with
  | nil => cases hmem
  | cons a l ih =>
    rcases List.mem_cons.mp hmem with rfl | hmem'
    · have hnotin : n ∉ l := (List.nodup_cons.mp hnodup).1
      have hmap : l.map (fun m => if m = n then w m + 1 else w m) = l.map w :=
        List.map_congr_left
          (fun m hm => by
            rw [if_neg (fun hh : m = n => hnotin (hh ▸ hm))])
      rw [List.map_cons, List.map_cons, List.sum_cons, List.sum_cons, hmap, if_pos rfl]
      omega
    · by_cases ha : a = n
      · subst ha
        exact absurd hmem' (List.nodup_cons.mp hnodup).1
      · simp only [List.map_cons, List.sum_cons, if_neg ha]
        rw [ih (List.nodup_cons.mp hnodup).2 hmem']
        omega

theorem assign_ticket_sum (st : EngineState) (t : Ticket) (sw ww : ℚ) (ov : Bool)
    (hne : st.engineers ≠ []) (hnames : ∀ e ∈ st.engineers, e.name ≠ "") :
    wlSum (assign_ticket st t sw ww ov).2 = wlSum st + 1 ∧
      (assign_ticket st t sw ww ov).2.engineers = st.engineers := by
  obtain ⟨n, hn, hmem⟩ := find_best_some_of_ne
    { st with current_ticket_id := some (pyTicketId t) } t sw ww ov hne
  have hmem' : n ∈ st.engineers.map Engineer.name := hmem
  have hnn : n ≠ "" := by
    obtain ⟨e, he, hename⟩ := List.mem_map.mp hmem'
    exact hename ▸ hnames e he
  obtain ⟨heng, hwl, _⟩ := find_best_state
    { st with current_ticket_id := some (pyTicketId t) } t sw ww ov
  rw [assign_ticket_of_some st t sw ww ov n hn, if_neg hnn]
  constructor
  · show (((((find_best_engineer { st with current_ticket_id := some (pyTicketId t) }
        t sw ww ov).2.engineers.map Engineer.name).dedup).map
          (fun m => if m = n
            then (find_best_engineer { st with current_ticket_id := some (pyTicketId t) }
              t sw ww ov).2.wl m + 1
            else (find_best_engineer { st with current_ticket_id := some (pyTicketId t) }
              t sw ww ov).2.wl m)).sum) = wlSum st + 1
    rw [heng, hwl]
    rw [wlSum_update ((st.engineers.map Engineer.name).dedup) st.wl n
      (List.nodup_dedup _) (List.mem_dedup.mpr hmem')]
    rfl
  · exact heng

theorem assignList_sum (sw ww : ℚ) (ov : Bool) (ts : List Ticket) :
    ∀ st : EngineState, st.engineers ≠ [] → (∀ e ∈ st.engineers, e.name ≠ "") →
      wlSum (assignList sw ww ov st ts).2 = wlSum st + ts.length ∧
        (assignList sw ww ov st ts).2.engineers = st.engineers := by
  induction ts with
  | nil =>
    intro st h1 h2
    exact ⟨by simp [assignList], rfl⟩
  | cons t ts ih =>
    intro st h1 h2
    obtain ⟨hstep, hengs⟩ := assign_ticket_sum st t sw ww ov h1 h2
    have h1' : (assign_ticket st t sw ww ov).2.engineers ≠ [] := by
      rw [hengs]; exact h1
    have h2' : ∀ e ∈ (assign_ticket st t sw ww ov).2.engineers, e.name ≠ "" := by
      rw [hengs]; exact h2
    obtain ⟨hrec, hengs2⟩ := ih (assign_ticket st t sw ww ov).2 h1' h2'
    constructor
    · show wlSum (assignList sw ww ov (assign_ticket st t sw ww ov).2 ts).2 = _
      rw [hrec, hstep, List.length_cons]
      omega
    · show (assignList sw ww ov (assign_ticket st t sw ww ov).2 ts).2.engineers = _
      rw [hengs2, hengs]

theorem wlSum_reset (st : EngineState) : wlSum (reset_workload st) = 0 := by
  rw [wlSum, reset_workload]
  induction ((st.engineers.map Engineer.name).dedup) with
  | nil => rfl
  | cons a l ih => simp [ih]

attribute [local semireducible] Rat.add Rat.mul Rat.sub Rat.inv in
/-- C8 (counterexample): the claim "after a batch with `reset_workload=true`
the workload counters sum to the number of tickets in the batch" fails as
stated: with a roster consisting of one engineer whose name is the empty
string (and likewise with an empty roster), a one-ticket batch leaves every
counter at zero, because the falsy engineer name skips the
`self.workload[assigned_engineer] += 1` update. -/
theorem workload_sum_cx :
    wlSum (assign_tickets (initState [⟨"", ["network"], "available", 5⟩])
        [⟨"Jira", none, none, "", "", none⟩] 1 1 true false).2 = 0 ∧
      ([(⟨"Jira", none, none, "", "", none⟩ : Ticket)] : List Ticket).length = 1 :=
  ⟨by decide, rfl⟩

/-- C8 (amended): for every batch of tickets and every non-empty engineer
roster whose engineers all have non-empty names, a batch run with
`reset_workload = true` leaves the workload counters summing to exactly the
number of tickets in the batch. -/
theorem workload_sum_amended (st : EngineState) (tickets : List Ticket) (sw ww : ℚ)
    (ov : Bool) (hne : st.engineers ≠ []) (hnames : ∀ e ∈ st.engineers, e.name ≠ "") :
    wlSum (assign_tickets st tickets sw ww true ov).2 = tickets.length := by
  have hres : assign_tickets st tickets sw ww true ov =
      assignList sw ww ov (reset_workload st) (List.insertionSort rle tickets) := by
    rw [assign_tickets, if_pos rfl]
  rw [hres]
  obtain ⟨hsum, _⟩ := assignList_sum sw ww ov (List.insertionSort rle tickets)
    (reset_workload st) hne hnames
  rw [hsum, wlSum_reset, (List.perm_insertionSort rle tickets).length_eq]
  omega

/-- Witness for the amended C8. -/
theorem workload_sum_amended_wit :
    wlSum (assign_tickets (initState [⟨"Ann", ["network"], "available", 5⟩])
        [⟨"Jira", none, none, "", "", none⟩] 1 1 true false).2 =
      ([(⟨"Jira", none, none, "", "", none⟩ : Ticket)] : List Ticket).length :=
  workload_sum_amended (initState [⟨"Ann", ["network"], "available", 5⟩])
    [⟨"Jira", none, none, "", "", none⟩] 1 1 false (by decide) (by decide)

/-! ## Claims about `assign_tickets`: priority-sorted stable dispatch -/

theorem assign_ticket_shape (st : EngineState) (t : Ticket) (sw ww : ℚ) (ov : Bool) :
    clearAssign (assign_ticket st t sw ww ov).1 = clearAssign t ∧
      (assign_ticket st t sw ww ov).1.assigned_engineer.isSome := by
  rw [assign_ticket]
  split
  · split
    · exact ⟨rfl, rfl⟩
    · exact ⟨rfl, rfl⟩
  · exact ⟨rfl, rfl⟩

theorem assignList_shape (sw ww : ℚ) (ov : Bool) (ts : List Ticket) :
    ∀ st : EngineState,
      (assignList sw ww ov st ts).1.map clearAssign = ts.map clearAssign ∧
        ∀ t' ∈ (assignList sw ww ov st ts).1, t'.assigned_engineer.isSome := by
  induction ts with
  | nil =>
    intro st
    exact ⟨rfl, fun t' ht' => absurd ht' (List.not_mem_nil t')⟩
  | cons t ts ih =>
    intro st
    obtain ⟨hclear, hsome⟩ := assign_ticket_shape st t sw ww ov
    obtain ⟨hmap, hall⟩ := ih (assign_ticket st t sw ww ov).2
    constructor
    · show clearAssign (assign_ticket st t sw ww ov).1 ::
          (assignList sw ww ov (assign_ticket st t sw ww ov).2 ts).1.map clearAssign =
        clearAssign t :: ts.map clearAssign
      rw [hclear, hmap]
    · intro t' ht'
      rcases List.mem_cons.mp ht' with rfl | ht'
      · exact hsome
      · exact hall t' ht'

theorem priorityRank_clearAssign (t : Ticket) : priorityRank (clearAssign t) = priorityRank t :=
  rfl

theorem filter_rank_orderedInsert (k : Nat) (a : Ticket) (l : List Ticket) :
    (List.orderedInsert rle a l).filter (fun t => priorityRank t == k) =
      if priorityRank a = k then a :: l.filter (fun t => priorityRank t == k)
      else l.filter (fun t => priorityRank t == k) := by
  induction l with
  | nil =>
    by_cases h : priorityRank a = k <;> simp [List.orderedInsert, h]
  | cons b l ih =>
    by_cases hr : rle a b
    · rw [List.orderedInsert, if_pos hr]
      by_cases ha : priorityRank a = k <;> by_cases hb : priorityRank b = k <;>
        simp [List.filter_cons, ha, hb]
    · rw [List.orderedInsert, if_neg hr]
      have hblt : priorityRank b < priorityRank a := Nat.lt_of_not_le hr
      by_cases ha : priorityRank a = k
      · have hb : ¬ priorityRank b = k := by omega
        simp [List.filter_cons, hb, ih, ha]
      · by_cases hb : priorityRank b = k <;> simp [List.filter_cons, hb, ih, ha]

theorem filter_rank_insertionSort (k : Nat) (l : List Ticket) :
    (List.insertionSort rle l).filter (fun t => priorityRank t == k) =
      l.filter (fun t => priorityRank t == k) := by
  induction l with
  | nil => rfl
  | cons a l ih =>
    rw [List.insertionSort, filter_rank_orderedInsert]
    by_cases h : priorityRank a = k <;> simp [List.filter_cons, h, ih]

theorem filter_map_clear_congr (l1 : List Ticket) :
    ∀ (l2 : List Ticket), l1.map clearAssign = l2.map clearAssign → ∀ k : Nat,
      (l1.filter (fun t => priorityRank t == k)).map clearAssign =
        (l2.filter (fun t => priorityRank t == k)).map clearAssign := by
  induction l1 with
  | nil =>
    intro l2 h k
    cases l2 with
    | nil => rfl
    | cons b l2 => exact absurd h (by simp)
  | cons a l1 ih =>
    intro l2 h k
    cases l2 with
    | nil => exact absurd h (by simp)
    | cons b l2 =>
      rw [List.map_cons, List.map_cons] at h
      have hab : clearAssign a = clearAssign b := (List.cons.injEq _ _ _ _).mp h |>.1
      have htl : l1.map clearAssign = l2.map clearAssign := (List.cons.injEq _ _ _ _).mp h |>.2
      have hrank : priorityRank a = priorityRank b := by
        rw [← priorityRank_clearAssign a, ← priorityRank_clearAssign b, hab]
      by_cases hk : priorityRank a = k
      · have hk' : priorityRank b = k := hrank ▸ hk
        rw [List.filter_cons, List.filter_cons]
        simp only [hk, hk', beq_self_eq_true]
        rw [if_pos (by simp), if_pos (by simp)]
        rw [List.map_cons, List.map_cons, hab, ih l2 htl k]
      · have hk' : ¬ priorityRank b = k := fun hh => hk (hrank.trans hh)
        rw [List.filter_cons, List.filter_cons]
        rw [if_neg (by simp [hk]), if_neg (by simp [hk'])]
        exact ih l2 htl k

/-- C7: the batch dispatcher returns the input tickets stably sorted by
`priorityRank` (High before Medium before Low, any other `ai_priority` value
ranking as Medium): the output is pairwise ordered by rank, each rank class
keeps the input tickets in input order (up to the `assigned_engineer` field,
the only field assignment writes), the output has the input's length, and
every output ticket has `assigned_engineer` populated. -/
theorem assign_tickets_sorted_thm (st : EngineState) (tickets : List Ticket) (sw ww : ℚ)
    (reset ov : Bool) :
    List.Pairwise (fun a b => priorityRank a ≤ priorityRank b)
        (assign_tickets st tickets sw ww reset ov).1 ∧
      (∀ k : Nat, ((assign_tickets st tickets sw ww reset ov).1.filter
            (fun t => priorityRank t == k)).map clearAssign =
          (tickets.filter (fun t => priorityRank t == k)).map clearAssign) ∧
      (assign_tickets st tickets sw ww reset ov).1.length = tickets.length ∧
      ∀ t ∈ (assign_tickets st tickets sw ww reset ov).1,
        t.assigned_engineer.isSome := by
  have hout : (assign_tickets st tickets sw ww reset ov).1 =
      (assignList sw ww ov (if reset then reset_workload st else st)
        (List.insertionSort rle tickets)).1 := by
    rw [assign_tickets]
  obtain ⟨hmap, hall⟩ := assignList_shape sw ww ov (List.insertionSort rle tickets)
    (if reset then reset_workload st else st)
  have hsorted : List.Pairwise rle (List.insertionSort rle tickets) :=
    List.sorted_insertionSort rle tickets
  refine ⟨?_, ?_, ?_, ?_⟩
  · rw [hout]
    have h1 : ((assignList sw ww ov (if reset then reset_workload st else st)
        (List.insertionSort rle tickets)).1.map priorityRank) =
        (List.insertionSort rle tickets).map priorityRank := by
      have e1 : ∀ l : List Ticket, l.map priorityRank = (l.map clearAssign).map priorityRank := by
        intro l
        rw [List.map_map]
        rfl
      rw [e1, hmap, ← e1]
    have h2 : List.Pairwise (fun a b : Nat => a ≤ b)
        ((List.insertionSort rle tickets).map priorityRank) :=
      List.pairwise_map.mpr hsorted
    rw [← h1] at h2
    exact List.pairwise_map.mp h2
  · intro k
    rw [hout, filter_map_clear_congr _ _ hmap k, filter_rank_insertionSort]
  · rw [hout]
    have : (assignList sw ww ov (if reset then reset_workload st else st)
        (List.insertionSort rle tickets)).1.length =
        (List.insertionSort rle tickets).length := by
      rw [← List.length_map _ clearAssign, hmap, List.length_map]
    rw [this, (List.perm_insertionSort rle tickets).length_eq]
  · rw [hout]
    exact hall

/-! ## Skill-input robustness: string lemmas -/

theorem dropWhile_eq_self (p : Char → Bool) (t : List Char)
    (h : ∀ c, t.head? = some c → p c = false) : t.dropWhile p = t := by
  cases t with
  | nil => rfl
  | cons a l =>
    rw [List.dropWhile_cons, if_neg]
    rw [h a rfl]
    exact Bool.false_ne_true

theorem pyStrip_eq_self (p : Char → Bool) (t : List Char)
    (hh : ∀ c, t.head? = some c → p c = false)
    (hl : ∀ c, t.getLast? = some c → p c = false) : pyStripL p t = t := by
  rw [pyStripL, dropWhile_eq_self p t hh,
    dropWhile_eq_self p t.reverse (fun c hc => hl c (by rwa [List.head?_reverse] at hc)),
    List.reverse_reverse]

theorem pyStrip_ws_cons_space (u : List Char) :
    pyStripL isWsC (' ' :: u) = pyStripL isWsC u := by
  rw [pyStripL, pyStripL, List.dropWhile_cons, if_pos (by decide)]

theorem cleanTok_props (t : List Char) (h : cleanTokB t = true) :
    t ≠ [] ∧ (∀ c ∈ t, ¬ c = ',') ∧ lowerL t = t ∧
      pyStripL isWsC t = t ∧ pyStripL isQuoteC t = t ∧
      (∀ c, t.head? = some c → ¬ c = '[') ∧
      (∀ c, t.head? = some c → isWsC c = false ∧ isQuoteC c = false) ∧
      (∀ c, t.getLast? = some c → isWsC c = false ∧ isQuoteC c = false) := by
  rw [cleanTokB, Bool.and_eq_true, Bool.and_eq_true, Bool.and_eq_true] at h
  obtain ⟨⟨⟨hne, hall⟩, hhd⟩, hlast⟩ := h
  have hne' : t ≠ [] := by
    cases t with
    | nil => exact absurd hne (by decide)
    | cons a l => exact List.cons_ne_nil a l
  have hall' : ∀ c ∈ t, (!(c == ',') && !(c == '[') && !(c == ']') && (c.toLower == c)) = true :=
    List.all_eq_true.mp hall
  have hcomma : ∀ c ∈ t, ¬ c = ',' := by
    intro c hc
    have := hall' c hc
    rw [Bool.and_eq_true, Bool.and_eq_true, Bool.and_eq_true] at this
    intro hEq
    have h1 := this.1.1.1
    rw [hEq] at h1
    exact absurd h1 (by decide)
  have hlower : lowerL t = t := by
    rw [lowerL]
    have : ∀ c ∈ t, c.toLower = c := by
      intro c hc
      have := hall' c hc
      rw [Bool.and_eq_true, Bool.and_eq_true, Bool.and_eq_true] at this
      exact beq_iff_eq.mp this.2
    calc t.map Char.toLower = t.map id := List.map_congr_left this
      _ = t := List.map_id t
  have hhd' : ∀ c, t.head? = some c → isWsC c = false ∧ isQuoteC c = false := by
    intro c hc
    rw [hc] at hhd
    rw [okEndB, Bool.and_eq_true, Bool.not_eq_true', Bool.not_eq_true'] at hhd
    exact hhd
  have hlast' : ∀ c, t.getLast? = some c → isWsC c = false ∧ isQuoteC c = false := by
    intro c hc
    rw [hc] at hlast
    rw [okEndB, Bool.and_eq_true, Bool.not_eq_true', Bool.not_eq_true'] at hlast
    exact hlast
  refine ⟨hne', hcomma, hlower,
    pyStrip_eq_self isWsC t (fun c hc => (hhd' c hc).1) (fun c hc => (hlast' c hc).1),
    pyStrip_eq_self isQuoteC t (fun c hc => (hhd' c hc).2) (fun c hc => (hlast' c hc).2),
    ?_, hhd', hlast'⟩
  intro c hc hEq
  have hcm : c ∈ t := by
    cases t with
    | nil => exact absurd hc (by simp)
    | cons a l =>
      have : a = c := by
        have : some a = some c := hc
        exact Option.some_injective _ this
      rw [← this]
      exact List.mem_cons_self a l
  have := hall' c hcm
  rw [Bool.and_eq_true, Bool.and_eq_true, Bool.and_eq_true] at this
  have h1 := this.1.1.2
  rw [hEq] at h1
  exact absurd h1 (by decide)

theorem pySplitAux_no_sep (sep : Char) (xs : List Char)
    (h : ∀ c ∈ xs, ¬ c = sep) : ∀ acc, pySplitAux sep xs acc = [acc.reverse ++ xs] := by
  induction xs with
  | nil =>
    intro acc
    simp [pySplitAux]
  | cons c cs ih =>
    intro acc
    rw [pySplitAux, if_neg (h c (List.mem_cons_self c cs))]
    rw [ih (fun x hx => h x (List.mem_cons_of_mem c hx)) (c :: acc)]
    simp

theorem pySplitAux_append_sep (sep : Char) (xs : List Char) (rest : List Char)
    (h : ∀ c ∈ xs, ¬ c = sep) :
    ∀ acc, pySplitAux sep (xs ++ sep :: rest) acc =
      (acc.reverse ++ xs) :: pySplitAux sep rest [] := by
  induction xs with
  | nil =>
    intro acc
    rw [List.nil_append, pySplitAux, if_pos rfl]
    simp
  | cons c cs ih =>
    intro acc
    rw [List.cons_append, pySplitAux, if_neg (h c (List.mem_cons_self c cs))]
    rw [ih (fun x hx => h x (List.mem_cons_of_mem c hx)) (c :: acc)]
    simp

theorem pySplitAux_joinCS (ts' : List (List Char)) :
    ∀ (t0 : List Char) (acc : List Char),
      (∀ t ∈ t0 :: ts', ∀ c ∈ t, ¬ c = ',') →
      pySplitAux ',' (joinCS (t0 :: ts')) acc =
        (acc.reverse ++ t0) :: ts'.map (fun u => ' ' :: u) := by
  induction ts' with
  | nil =>
    intro t0 acc h
    rw [joinCS]
    rw [pySplitAux_no_sep ',' t0 (h t0 (List.mem_cons_self t0 [])) acc]
    rfl
  | cons u rest ih =>
    intro t0 acc h
    rw [joinCS]
    rw [pySplitAux_append_sep ',' t0 (' ' :: joinCS (u :: rest))
      (h t0 (List.mem_cons_self t0 (u :: rest))) acc]
    have hstep : pySplitAux ',' (' ' :: joinCS (u :: rest)) [] =
        pySplitAux ',' (joinCS (u :: rest)) [' '] := by
      rw [pySplitAux, if_neg (by decide)]
    rw [hstep, ih u [' ']
      (fun t ht => h t (List.mem_cons_of_mem t0 ht))]
    rfl

theorem pySplit_joinCS (t0 : List Char) (ts' : List (List Char))
    (h : ∀ t ∈ t0 :: ts', ∀ c ∈ t, ¬ c = ',') :
    pySplitL ',' (joinCS (t0 :: ts')) = t0 :: ts'.map (fun u => ' ' :: u) := by
  rw [pySplitL, pySplitAux_joinCS ts' t0 [] h]
  rfl

theorem joinCS_ne_nil (t0 : List Char) (ts' : List (List Char)) (h : t0 ≠ []) :
    joinCS (t0 :: ts') ≠ [] := by
  cases ts' with
  | nil => rw [joinCS]; exact h
  | cons u rest =>
    rw [joinCS]
    cases t0 with
    | nil => exact absurd rfl h
    | cons c cs => simp

theorem joinCS_head? (t0 : List Char) (ts' : List (List Char)) (h : t0 ≠ []) :
    (joinCS (t0 :: ts')).head? = t0.head? := by
  cases ts' with
  | nil => rw [joinCS]
  | cons u rest =>
    rw [joinCS, List.head?_append]
    cases t0 with
    | nil => exact absurd rfl h
    | cons c cs => rfl

theorem joinCS_getLast?_mem (ts' : List (List Char)) :
    ∀ t0 : List Char, t0 ≠ [] → (∀ u ∈ ts', u ≠ []) →
      ∃ tl ∈ t0 :: ts', (joinCS (t0 :: ts')).getLast? = tl.getLast? := by
  induction ts' with
  | nil =>
    intro t0 _ _
    exact ⟨t0, List.mem_cons_self t0 [], by rw [joinCS]⟩
  | cons u rest ih =>
    intro t0 h0 hu
    obtain ⟨tl, htl, heq⟩ := ih u (hu u (List.mem_cons_self u rest))
      (fun x hx => hu x (List.mem_cons_of_mem u hx))
    refine ⟨tl, List.mem_cons_of_mem t0 htl, ?_⟩
    rw [joinCS, List.getLast?_append]
    have hne : joinCS (u :: rest) ≠ [] :=
      joinCS_ne_nil u rest (hu u (List.mem_cons_self u rest))
    have : (',' :: ' ' :: joinCS (u :: rest)).getLast? = (joinCS (u :: rest)).getLast? := by
      cases hj : joinCS (u :: rest) with
      | nil => exact absurd hj hne
      | cons a l => simp
    rw [this, heq]
    cases htl' : tl.getLast? with
    | none =>
      have : tl = [] := by
        cases tl with
        | nil => rfl
        | cons a l => simp at htl'
      exact absurd this (hu tl htl)
    | some c => rfl

theorem norm_pipeline (t0 : List Char) (ts' : List (List Char))
    (hclean : ∀ t ∈ t0 :: ts', cleanTokB t = true) :
    ((((pySplitL ',' (joinCS (t0 :: ts'))).filter
        (fun p => pyStripL isWsC p ≠ [])).map
          (fun p => pyStripL isQuoteC (pyStripL isWsC p))).filter
            (fun p => p ≠ [])).map lowerL = t0 :: ts' := by
  have props := fun t ht => cleanTok_props t (hclean t ht)
  have h0 := props t0 (List.mem_cons_self t0 ts')
  have hcomma : ∀ t ∈ t0 :: ts', ∀ c ∈ t, ¬ c = ',' := fun t ht => (props t ht).2.1
  rw [pySplit_joinCS t0 ts' hcomma]
  have hstrip : ∀ u ∈ ts', pyStripL isWsC (' ' :: u) = u := by
    intro u hu
    rw [pyStrip_ws_cons_space u, (props u (List.mem_cons_of_mem t0 hu)).2.2.2.1]
  have hfilter1 : (t0 :: ts'.map (fun u => ' ' :: u)).filter
      (fun p => pyStripL isWsC p ≠ []) = t0 :: ts'.map (fun u => ' ' :: u) := by
    rw [List.filter_eq_self]
    intro a ha
    rcases List.mem_cons.mp ha with rfl | ha
    · rw [h0.2.2.2.1]
      exact decide_eq_true h0.1
    · obtain ⟨u, hu, rfl⟩ := List.mem_map.mp ha
      rw [hstrip u hu]
      exact decide_eq_true (props u (List.mem_cons_of_mem t0 hu)).1
  rw [hfilter1]
  have hmap : (t0 :: ts'.map (fun u => ' ' :: u)).map
      (fun p => pyStripL isQuoteC (pyStripL isWsC p)) = t0 :: ts' := by
    rw [List.map_cons, h0.2.2.2.1, h0.2.2.2.2.1, List.map_map]
    congr 1
    have : ∀ u ∈ ts',
        ((fun p => pyStripL isQuoteC (pyStripL isWsC p)) ∘ (fun u => ' ' :: u)) u = id u := by
      intro u hu
      show pyStripL isQuoteC (pyStripL isWsC (' ' :: u)) = u
      rw [hstrip u hu, (props u (List.mem_cons_of_mem t0 hu)).2.2.2.2.1]
    rw [List.map_congr_left this, List.map_id]
  rw [hmap]
  have hfilter2 : (t0 :: ts').filter (fun p => p ≠ []) = t0 :: ts' := by
    rw [List.filter_eq_self]
    intro a ha
    exact decide_eq_true (props a ha).1
  rw [hfilter2]
  have : ∀ u ∈ t0 :: ts', lowerL u = id u := fun u hu => (props u hu).2.2.1
  rw [List.map_congr_left this, List.map_id]

theorem normStr_joinCS (t0 : List Char) (ts' : List (List Char))
    (hclean : ∀ t ∈ t0 :: ts', cleanTokB t = true) :
    normStrTokens (joinCS (t0 :: ts')) = t0 :: ts' := by
  have props := fun t ht => cleanTok_props t (hclean t ht)
  have h0 := props t0 (List.mem_cons_self t0 ts')
  have hhead : (joinCS (t0 :: ts')).head? = t0.head? := joinCS_head? t0 ts' h0.1
  have hs1 : pyStripL isWsC (joinCS (t0 :: ts')) = joinCS (t0 :: ts') := by
    apply pyStrip_eq_self
    · intro c hc
      rw [hhead] at hc
      exact (h0.2.2.2.2.2.2.1 c hc).1
    · intro c hc
      obtain ⟨tl, htl, heq⟩ := joinCS_getLast?_mem ts' t0 h0.1
        (fun u hu => (props u (List.mem_cons_of_mem t0 hu)).1)
      rw [heq] at hc
      exact ((props tl htl).2.2.2.2.2.2.2 c hc).1
  have hnb : ¬ ((pyStripL isWsC (joinCS (t0 :: ts'))).head? = some '[' ∧
      (pyStripL isWsC (joinCS (t0 :: ts'))).getLast? = some ']') := by
    rintro ⟨hbr, -⟩
    rw [hs1, hhead] at hbr
    exact h0.2.2.2.2.2.1 '[' hbr rfl
  simp only [normStrTokens]
  rw [if_neg hnb, hs1]
  exact norm_pipeline t0 ts' hclean

theorem normStr_bracket (ts : List (List Char)) (hclean : ∀ t ∈ ts, cleanTokB t = true) :
    normStrTokens ('[' :: (joinCS ts ++ [']'])) = ts := by
  cases ts with
  | nil => decide
  | cons t0 ts' =>
    have props := fun t ht => cleanTok_props t (hclean t ht)
    have hlast : ('[' :: (joinCS (t0 :: ts') ++ [']'])).getLast? = some ']' := by
      rw [show ('[' :: (joinCS (t0 :: ts') ++ [']'])) =
        ('[' :: joinCS (t0 :: ts')) ++ [']'] by simp, List.getLast?_concat]
    have hs1 : pyStripL isWsC ('[' :: (joinCS (t0 :: ts') ++ [']'])) =
        '[' :: (joinCS (t0 :: ts') ++ [']']) := by
      apply pyStrip_eq_self
      · intro c hc
        have : c = '[' := (Option.some_injective _ hc).symm
        subst this
        decide
      · intro c hc
        rw [hlast] at hc
        have : c = ']' := (Option.some_injective _ hc).symm
        subst this
        decide
    have hbr : (pyStripL isWsC ('[' :: (joinCS (t0 :: ts') ++ [']']))).head? = some '[' ∧
        (pyStripL isWsC ('[' :: (joinCS (t0 :: ts') ++ [']']))).getLast? = some ']' := by
      rw [hs1]
      exact ⟨rfl, hlast⟩
    simp only [normStrTokens]
    rw [if_pos hbr, hs1]
    have hdrop : (('[' :: (joinCS (t0 :: ts') ++ [']'])).drop 1).dropLast =
        joinCS (t0 :: ts') := by
      show (joinCS (t0 :: ts') ++ [']']).dropLast = joinCS (t0 :: ts')
      exact List.dropLast_concat
    rw [hdrop]
    exact norm_pipeline t0 ts' hclean

theorem normList_clean (ts : List (List Char)) (hclean : ∀ t ∈ ts, cleanTokB t = true) :
    normListTokens ts = ts := by
  rw [normListTokens]
  have hf : ts.filter (fun t => t ≠ []) = ts := by
    rw [List.filter_eq_self]
    intro a ha
    exact decide_eq_true (cleanTok_props a (hclean a ha)).1
  rw [hf]
  have : ∀ u ∈ ts, (fun t => lowerL (pyStripL isWsC t)) u = id u := by
    intro u hu
    show lowerL (pyStripL isWsC u) = u
    rw [(cleanTok_props u (hclean u hu)).2.2.2.1, (cleanTok_props u (hclean u hu)).2.2.1]
  rw [List.map_congr_left this, List.map_id]

theorem calc_eq_half_of_norm_nil (e : Engineer) (i : SkillsInput)
    (h : pyNormalize i = []) : calculate_skill_match_score e i = 1/2 := by
  rw [calculate_skill_match_score]
  by_cases hf : i.isFalsy = true
  · rw [if_pos hf]
  · rw [if_neg hf]
    simp [h]

theorem calc_congr_norm (e : Engineer) (i1 i2 : SkillsInput)
    (h1 : i1.isFalsy = false) (h2 : i2.isFalsy = false)
    (h : pyNormalize i1 = pyNormalize i2) :
    calculate_skill_match_score e i1 = calculate_skill_match_score e i2 := by
  rw [calculate_skill_match_score, calculate_skill_match_score, h1, h2, h]

/-- C6: `calculate_skill_match_score` is robust in the shape of its
skill input.  For every list of clean skill tokens, the native-list shape,
the comma-separated-string shape, and the bracketed-string shape all yield
the same score; and whenever the normalized required-skill token list is
empty — in particular for empty or null input — the score is exactly
`0.5`. -/
theorem skill_score_robust_thm (eng : Engineer) (ts : List (List Char))
    (hclean : ∀ t ∈ ts, cleanTokB t = true) (inp : SkillsInput)
    (hempty : pyNormalize inp = []) :
    (calculate_skill_match_score eng (SkillsInput.list (ts.map (fun t => String.mk t))) =
        calculate_skill_match_score eng (SkillsInput.str (String.mk (joinCS ts))) ∧
      calculate_skill_match_score eng
          (SkillsInput.str (String.mk ('[' :: (joinCS ts ++ [']'])))) =
        calculate_skill_match_score eng (SkillsInput.list (ts.map (fun t => String.mk t)))) ∧
    calculate_skill_match_score eng inp = 1/2 := by
  refine ⟨?_, calc_eq_half_of_norm_nil eng inp hempty⟩
  cases ts with
  | nil =>
    constructor
    · rfl
    · rw [calc_eq_half_of_norm_nil eng _ (by decide)]
      rfl
  | cons t0 ts' =>
    have hjoin_ne : joinCS (t0 :: ts') ≠ [] :=
      joinCS_ne_nil t0 ts' (cleanTok_props t0 (hclean t0 (List.mem_cons_self t0 ts'))).1
    have hlf : (SkillsInput.list ((t0 :: ts').map (fun t => String.mk t))).isFalsy = false :=
      rfl
    have hsf : (SkillsInput.str (String.mk (joinCS (t0 :: ts')))).isFalsy = false := by
      show (String.mk (joinCS (t0 :: ts')) == "") = false
      rw [beq_eq_false_iff_ne]
      intro hEq
      exact hjoin_ne (congrArg String.data hEq)
    have hbf : (SkillsInput.str
        (String.mk ('[' :: (joinCS (t0 :: ts') ++ [']'])))).isFalsy = false := by
      show (String.mk ('[' :: (joinCS (t0 :: ts') ++ [']'])) == "") = false
      rw [beq_eq_false_iff_ne]
      intro hEq
      exact absurd (congrArg String.data hEq) (by simp)
    have hnl : pyNormalize (SkillsInput.list ((t0 :: ts').map (fun t => String.mk t))) =
        t0 :: ts' := by
      show normListTokens (((t0 :: ts').map (fun t => String.mk t)).map String.toList) =
        t0 :: ts'
      rw [List.map_map]
      have he : ∀ u ∈ t0 :: ts', (String.toList ∘ fun t => String.mk t) u = id u :=
        fun u _ => rfl
      rw [List.map_congr_left he, List.map_id]
      exact normList_clean (t0 :: ts') hclean
    have hns : pyNormalize (SkillsInput.str (String.mk (joinCS (t0 :: ts')))) =
        t0 :: ts' := normStr_joinCS t0 ts' hclean
    have hnb : pyNormalize (SkillsInput.str
        (String.mk ('[' :: (joinCS (t0 :: ts') ++ [']'])))) = t0 :: ts' :=
      normStr_bracket (t0 :: ts') hclean
    exact ⟨calc_congr_norm eng _ _ hlf hsf (hnl.trans hns.symm),
      calc_congr_norm eng _ _ hbf hlf (hnb.trans hnl.symm)⟩

/-- Witness for C6 at one clean token and a null input. -/
theorem skill_score_robust_wit :
    (calculate_skill_match_score ⟨"Ann", ["network"], "available", 5⟩
        (SkillsInput.list (["network".toList].map (fun t => String.mk t))) =
      calculate_skill_match_score ⟨"Ann", ["network"], "available", 5⟩
        (SkillsInput.str (String.mk (joinCS ["network".toList]))) ∧
      calculate_skill_match_score ⟨"Ann", ["network"], "available", 5⟩
          (SkillsInput.str (String.mk ('[' :: (joinCS ["network".toList] ++ [']'])))) =
        calculate_skill_match_score ⟨"Ann", ["network"], "available", 5⟩
          (SkillsInput.list (["network".toList].map (fun t => String.mk t)))) ∧
    calculate_skill_match_score ⟨"Ann", ["network"], "available", 5⟩ SkillsInput.null =
      1/2 :=
  skill_score_robust_thm ⟨"Ann", ["network"], "available", 5⟩ ["network".toList]
    (by decide) SkillsInput.null (by decide)
